import Mathlib

/-!
Verification development for the `chess_interface` UCI front end
(`src/chess_interface/main.py`).

The embedding models the `UCI` class as an explicit state record.  The
user-supplied search task (the `move_search` callable) is external and is
modelled by its contract (section 4.3 of the design document): a running
task deposits exactly one result on the result queue before its thread
exits, also when it is cancelled.  The environment parameter
`results : Nat -> BestMove` fixes, for each started task (identified by a
fresh id), the result that task will deliver.

Python exceptions escaping `process_command` are modelled by the `.err`
outcome (the state at raise time is retained, since the mutations made
before the raise survive on the object), `sys.exit` by `.exit`, and the
non-terminating busy wait in the `stop` handler by `.hang`.
-/

namespace ChessInterface

/-- Result message a search task sends on the result queue: the Python code
distinguishes a plain move string from a (move, ponder) pair via
`isinstance`. -/
inductive BestMove where
  | mv (m : String)
  | mvPonder (m p : String)
deriving DecidableEq, Repr

/-- Helper of `split_space`: characters seen so far in the current field
are accumulated in reverse. -/
def splitSpaceAux : List Char → List Char → List String
  | [], acc => [String.mk acc.reverse]
  | c :: cs, acc =>
      if c = ' ' then String.mk acc.reverse :: splitSpaceAux cs []
      else splitSpaceAux cs (c :: acc)

/-- Model of python `s.split(" ")`: split on every single space, keeping
empty fields (`"a  b".split(" ")` is `["a", "", "b"]`, `"".split(" ")` is
`[""]`). -/
def split_space (s : String) : List String :=
  splitSpaceAux s.data []

/-- Model of python `s.startswith(p)`. -/
def starts_with (s p : String) : Bool :=
  p.data.isPrefixOf s.data

/-- Digit value of a decimal digit character. -/
def digitVal (c : Char) : Option Nat :=
  if c.isDigit then some (c.toNat - Char.toNat (Char.ofNat 48)) else none

/-- Helper of `py_int`: fold a non-empty digit string. -/
def pyIntDigits : List Char → Nat → Option Nat
  | [], acc => some acc
  | c :: cs, acc =>
      match digitVal c with
      | none => none
      | some d => pyIntDigits cs (acc * 10 + d)

/-- Model of python `int(tok)` on a token produced by `split(" ")`: an
optional sign followed by at least one decimal digit; anything else raises
`ValueError`, modelled by `none`.  (Python also tolerates surrounding
whitespace and underscores between digits; tokens from `split(" ")` have
no whitespace and the difference is irrelevant to the claims.) -/
def py_int (s : String) : Option Int :=
  match s.data with
  | '-' :: c :: cs => (pyIntDigits (c :: cs) 0).map (fun n => -(n : Int))
  | '+' :: c :: cs => (pyIntDigits (c :: cs) 0).map (fun n => (n : Int))
  | c :: cs => (pyIntDigits (c :: cs) 0).map (fun n => (n : Int))
  | [] => none

/-- A started search thread: its fresh id together with the arguments the
`go` handler passed to `threading.Thread` (position, time limit, max depth). -/
structure Task where
  id : Nat
  position : String
  time_limit : Int
  max_depth : Int
deriving DecidableEq, Repr

/-- State of a `UCI` object, plus the model of the thread environment:
`live` is the list of search threads currently running (the real program
has at most one, which is exactly what we prove), `next_id` supplies fresh
task ids, and `output` accumulates the lines printed by `send`. -/
structure SysState where
  position : String
  best_move : Option BestMove
  time_limit : Int
  max_depth : Int
  send_queue : List String
  recv_queue : List BestMove
  move_thread : Option Nat
  author : String
  engine_name : String
  live : List Task
  next_id : Nat
  output : List String
deriving DecidableEq, Repr

/-- The state built by `UCI.__init__` with the default identity strings. -/
def initState : SysState :=
  { position := "startpos"
    best_move := none
    time_limit := 0
    max_depth := 0
    send_queue := []
    recv_queue := []
    move_thread := none
    author := "(UCI Implementation) Jacob MacMillan Software Inc."
    engine_name := "UCI Chess Engine"
    live := []
    next_id := 0
    output := [] }

/-- Interface of the external rules library (python-chess) as consumed by
`process_command`: `fromFen` models `chess.Board(fen)` (`none` when the
constructor raises `ValueError`), `pushUci` models
`board.push(chess.Move.from_uci(tok))` (`none` when `from_uci` raises on a
malformed token), and `fen` models `board.fen()`. -/
structure Rules (Board : Type) where
  start : Board
  fromFen : String → Option Board
  pushUci : Board → String → Option Board
  fen : Board → String

/-- Outcome of processing one command: normal return, an escaped Python
exception (with the mutated state at raise time), the non-terminating busy
wait of the `stop` handler, or `sys.exit`. -/
inductive Outcome where
  | ok (s : SysState)
  | err (s : SysState)
  | hang (s : SysState)
  | exit (s : SysState)
deriving DecidableEq, Repr

/-- Ids of the currently running search threads. -/
def liveIds (s : SysState) : List Nat :=
  s.live.map (fun task => task.id)

/-- Model of `thread.join()` under the search-task contract: if the thread
is still running it deposits its single result on the result queue and
exits; joining an already finished thread does nothing. -/
def joinThread (results : Nat → BestMove) (s : SysState) (t : Nat) : SysState :=
  if t ∈ liveIds s then
    { s with recv_queue := s.recv_queue ++ [results t]
             live := s.live.filter (fun task => task.id ≠ t) }
  else s

/-- A running task finishing on its own (time or depth budget exhausted):
it deposits its single result and its thread exits.  This is an
environment event, identical in effect to being joined mid-run. -/
def taskFinish (results : Nat → BestMove) (s : SysState) (t : Nat) : SysState :=
  joinThread results s t

/-- Lines 115-118 of `process_command` (`go` handler): if a thread handle
is present, put `"stop"` on the send queue, join the thread and clear the
handle. -/
def killThread (results : Nat → BestMove) (s : SysState) : SysState :=
  match s.move_thread with
  | none => s
  | some t =>
      let s1 := { s with send_queue := s.send_queue ++ ["stop"] }
      let s2 := joinThread results s1 t
      { s2 with move_thread := none }

/-- Lines 119-122: the two `while not empty: get()` loops that empty both
queues. -/
def drain (s : SysState) : SysState :=
  { s with send_queue := [], recv_queue := [] }

/-- Lines 129-138: the argument loop of the `go` handler.  The loop visits
every index from 1 on; on `movetime` and `depth` it reads the *next* token
with `int(args[i + 1])`, which raises `IndexError` when there is no next
token and `ValueError` when it is not an integer literal (both modelled by
`none`).  The index is not advanced past the value token, the value token
is simply not a recognized flag on the following iteration. -/
def goLoop : List String → Int → Int → Option (Int × Int)
  | [], t, d => some (t, d)
  | a :: rest, t, d =>
      if a = "movetime" then
        match rest with
        | [] => none
        | b :: _ =>
            match py_int b with
            | none => none
            | some n => goLoop rest n d
      else if a = "depth" then
        match rest with
        | [] => none
        | b :: _ =>
            match py_int b with
            | none => none
            | some n => goLoop rest t n
      else if a = "infinite" then
        goLoop rest 999999999 d
      else
        goLoop rest t d

/-- Lines 141-146: start the move search on a new thread with the current
position and the freshly parsed limits. -/
def startThread (s : SysState) (t d : Int) : SysState :=
  { s with move_thread := some s.next_id
           live := s.live ++ [⟨s.next_id, s.position, t, d⟩]
           next_id := s.next_id + 1 }

/-- Lines 113-146: the `go` handler.  Kill a running thread, empty both
queues, parse the limits from this command alone, start the new thread.
A parse failure raises after the queues were already drained and the old
thread killed. -/
def goBranch (results : Nat → BestMove) (s : SysState) (command : String) :
    Outcome :=
  let s1 := drain (killThread results s)
  match goLoop (split_space command).tail 0 0 with
  | none => .err s1
  | some (t, d) => .ok (startThread s1 t d)

/-- Rendering of a result as the `bestmove` protocol line
(lines 160-163 and 197-200): `bestmove <m>` for a plain string result,
`bestmove <m> ponder <p>` for a pair result. -/
def render : BestMove → String
  | .mv m => "bestmove " ++ m
  | .mvPonder m p => "bestmove " ++ m ++ " ponder " ++ p

/-- Print the `bestmove` line for a result via `send` (stdout is modelled
by the `output` list). -/
def emitBest (s : SysState) (m : BestMove) : SysState :=
  { s with output := s.output ++ [render m] }

/-- Lines 153-163 of the `stop` handler, after the busy wait has seen a
message: `self.best_move = self.recv_queue.get()`, then
`self.move_thread.join()` (an `AttributeError` if the handle is `None`),
then print the `bestmove` line. -/
def stopTake (results : Nat → BestMove) (s : SysState) : Outcome :=
  match s.recv_queue with
  | [] => .hang s
  | m :: rest =>
      let s1 := { s with best_move := some m, recv_queue := rest }
      match s1.move_thread with
      | none => .err s1
      | some t => .ok (emitBest (joinThread results s1 t) m)

/-- Lines 148-163: the `stop` handler.  Put `"stop"` on the send queue,
then busy-wait (`while self.recv_queue.empty(): time.sleep(0.1)`) until the
result queue is non-empty.  The only possible sender is a running search
thread, which by the task contract delivers its single result and exits;
when no thread is running and the queue is empty the wait never
terminates, which is the `.hang` outcome. -/
def stopBranch (results : Nat → BestMove) (s : SysState) : Outcome :=
  let s1 := { s with send_queue := s.send_queue ++ ["stop"] }
  match s1.recv_queue with
  | _ :: _ => stopTake results s1
  | [] =>
      match s1.live with
      | [] => .hang s1
      | task :: rest =>
          stopTake results
            { s1 with recv_queue := s1.recv_queue ++ [results task.id]
                      live := rest }

/-- Replay of a move list on a board: `for i in range(9, len(args)):
chess_board.push(chess.Move.from_uci(args[i]))`; the first malformed token
raises (modelled by `none`). -/
def pushAll {Board : Type} (R : Rules Board) : Board → List String → Option Board
  | b, [] => some b
  | b, m :: ms =>
      match R.pushUci b m with
      | none => none
      | some b2 => pushAll R b2 ms

/-- Lines 95-112: the `position` handler.  Note the exact source order:
`self.position` is set to `"startpos"` *first* (line 97); for the `fen`
form it is then overwritten with the six FEN fields (`args[2:8]`,
line 104); `chess.Board(self.position)` is then called on whatever
`self.position` now holds (line 106) — the fresh `chess.Board()` built on
line 100 is dead, it is overwritten here.  Moves are replayed only when
`len(args) > 8 and args[8] == "moves"` (line 108), which can only hold for
the `fen` form.  Any raise leaves the already performed mutations of
`self.position` in place. -/
def positionBranch {Board : Type} (R : Rules Board) (s : SysState)
    (command : String) : Outcome :=
  let s1 := { s with position := "startpos" }
  let args := split_space command
  match args[1]? with
  | none => .err s1
  | some a1 =>
      let s2 :=
        if a1 ≠ "startpos" then
          if a1 = "fen" then
            { s1 with position := String.intercalate " " ((args.drop 2).take 6) }
          else s1
        else s1
      match R.fromFen s2.position with
      | none => .err s2
      | some b =>
          if args[8]? = some "moves" then
            match pushAll R b (args.drop 9) with
            | none => .err s2
            | some b2 => .ok { s2 with position := R.fen b2 }
          else .ok { s2 with position := R.fen b }

/-- Lines 89-92: the `uci` handler emits the identity lines and `uciok`. -/
def uciBranch (s : SysState) : SysState :=
  { s with output := s.output ++
      ["id name " ++ s.engine_name, "id author " ++ s.author, "uciok"] }

/-- Translation of `process_command` (lines 78-172): the `if`/`elif` chain
in source order.  `uci` and `isready` are matched exactly, the rest by
`startswith`; any line matching none of the branches falls into the
final `else: pass`. -/
def process_command {Board : Type} (R : Rules Board)
    (results : Nat → BestMove) (s : SysState) (command : String) : Outcome :=
  if command = "uci" then .ok (uciBranch s)
  else if command = "isready" then
    .ok { s with output := s.output ++ ["readyok"] }
  else if starts_with command "position" then positionBranch R s command
  else if starts_with command "go" then goBranch results s command
  else if starts_with command "stop" then stopBranch results s
  else if starts_with command "ucinewgame" then
    .ok { s with position := "startpos" }
  else if starts_with command "setoption" then .ok s
  else if starts_with command "quit" then .exit s
  else .ok s

/-- Lines 195-201 of `check_best_move`: the non-blocking look at the
result queue, printing and returning `True` when a message is present. -/
def checkRecv (s : SysState) : Bool × SysState :=
  match s.recv_queue with
  | [] => (false, s)
  | m :: rest =>
      (true, emitBest { s with best_move := some m, recv_queue := rest } m)

/-- Lines 184-202: `check_best_move`.  If a handle is present and the
thread `is_alive()`, return `False` at once; if the thread has exited,
join it (a no-op on a finished thread) and clear the handle; in either
remaining case consult the result queue non-blockingly.  The model is a
total function, so the helper never blocks by construction. -/
def check_best_move (results : Nat → BestMove) (s : SysState) :
    Bool × SysState :=
  match s.move_thread with
  | some t =>
      if t ∈ liveIds s then (false, s)
      else checkRecv { joinThread results s t with move_thread := none }
  | none => checkRecv s

/-- One event of the interleaving semantics: a command line handed to
`process_command`, a spontaneous finish of a running search thread, or a
`check_best_move` poll by the driver loop. -/
inductive Ev where
  | cmd (line : String)
  | finish (t : Nat)
  | poll
deriving DecidableEq, Repr

/-- One step of the system. -/
def step {Board : Type} (R : Rules Board) (results : Nat → BestMove)
    (s : SysState) : Ev → Outcome
  | .cmd line => process_command R results s line
  | .finish t => .ok (taskFinish results s t)
  | .poll => .ok (check_best_move results s).2

/-- Run of a sequence of events; an exception, a hang or an exit aborts
the run with that outcome, exactly as it stops the Python driver loop. -/
def run {Board : Type} (R : Rules Board) (results : Nat → BestMove)
    (s : SysState) : List Ev → Outcome
  | [] => .ok s
  | e :: es =>
      match step R results s e with
      | .ok s1 => run R results s1 es
      | o => o

/-- Toy board for concrete instantiations of the external rules interface:
the base descriptor together with the moves played on it. -/
structure ToyBoard where
  base : String
  played : List String
deriving DecidableEq, Repr

/-- File letters of the coordinate move syntax accepted by
`chess.Move.from_uci`. -/
def toyFiles : List Char := ['a', 'b', 'c', 'd', 'e', 'f', 'g', 'h']

/-- Rank digits of the coordinate move syntax. -/
def toyRanks : List Char := ['1', '2', '3', '4', '5', '6', '7', '8']

/-- Syntactic validity of a move token in the toy rules: four characters
in coordinate form.  A token such as `"zz99"` is rejected, as
`chess.Move.from_uci` rejects it with an `InvalidMoveError`. -/
def toyMoveOk (m : String) : Bool :=
  match m.toList with
  | [f1, r1, f2, r2] =>
      toyFiles.contains f1 && toyRanks.contains r1 &&
        toyFiles.contains f2 && toyRanks.contains r2
  | _ => false

/-- FEN shape check of the toy rules: six space-separated fields.  The
string `"startpos"` is not a FEN descriptor and is rejected, exactly as
`chess.Board("startpos")` raises `ValueError` in python-chess (compare
`example_engine.py`, which special-cases `"startpos"` before calling
`set_fen`). -/
def toyFenOk (f : String) : Bool :=
  (split_space f).length = 6

/-- FEN of the standard starting position. -/
def startFen : String :=
  "rnbqkbnr/pppppppp/8/8/8/8/PPPPPPPP/RNBQKBNR w KQkq - 0 1"

/-- Concrete toy instantiation of the external rules interface, used to
evaluate the embedding on concrete inputs. -/
def toyRules : Rules ToyBoard :=
  { start := ⟨startFen, []⟩
    fromFen := fun f => if toyFenOk f then some ⟨f, []⟩ else none
    pushUci := fun b m =>
      if toyMoveOk m then some ⟨b.base, b.played ++ [m]⟩ else none
    fen := fun b => String.intercalate " " (b.base :: b.played) }

/-! ## Reachability invariant

The inductive invariant of the session: the identity strings never change
after construction; at most one search thread runs at a time; any running
thread is the one held by `move_thread`; the result queue holds at most
one message, namely the result of the task held by `move_thread`, and a
deposited result means its thread has already exited; thread ids held by
the handle are below the fresh-id counter. -/

structure Inv (results : Nat → BestMove) (s : SysState) : Prop where
  names_engine : s.engine_name = "UCI Chess Engine"
  names_author : s.author = "(UCI Implementation) Jacob MacMillan Software Inc."
  live_le : s.live.length ≤ 1
  live_handle : ∀ task ∈ s.live, s.move_thread = some task.id
  recv_handle : ∀ m ∈ s.recv_queue, some m = s.move_thread.map results
  recv_le : s.recv_queue.length ≤ 1
  recv_live : s.recv_queue ≠ [] → s.live = []
  handle_lt : ∀ t, s.move_thread = some t → t < s.next_id

theorem inv_initState (results : Nat → BestMove) : Inv results initState := by
  constructor <;> simp [initState]

/-- When the handle is empty no thread is running. -/
theorem live_nil_of_handle_none {results : Nat → BestMove} {s : SysState}
    (hInv : Inv results s) (h : s.move_thread = none) : s.live = [] := by
  cases hl : s.live with
  | nil => rfl
  | cons a l =>
      have ha := hInv.live_handle a (by rw [hl]; exact List.mem_cons_self a l)
      rw [h] at ha
      exact absurd ha (by simp)

/-- A list of length at most one containing an element is that singleton. -/
theorem eq_singleton_of_mem_of_len_le {α : Type} {l : List α} {a : α}
    (hle : l.length ≤ 1) (hm : a ∈ l) : l = [a] := by
  cases l with
  | nil => cases hm
  | cons b t =>
      cases t with
      | nil =>
          rcases List.mem_singleton.mp hm with rfl
          rfl
      | cons c u => simp at hle

/-- Rebuild the invariant from a state agreeing on all fields the
invariant mentions. -/
theorem inv_core {results : Nat → BestMove} {s s1 : SysState}
    (hInv : Inv results s)
    (h1 : s1.live = s.live) (h2 : s1.recv_queue = s.recv_queue)
    (h3 : s1.move_thread = s.move_thread) (h4 : s1.next_id = s.next_id)
    (h5 : s1.engine_name = s.engine_name) (h6 : s1.author = s.author) :
    Inv results s1 := by
  constructor
  · rw [h5]; exact hInv.names_engine
  · rw [h6]; exact hInv.names_author
  · rw [h1]; exact hInv.live_le
  · intro task hm
    rw [h1] at hm
    rw [h3]
    exact hInv.live_handle task hm
  · intro m hm
    rw [h2] at hm
    rw [h3]
    exact hInv.recv_handle m hm
  · rw [h2]; exact hInv.recv_le
  · intro hne
    rw [h2] at hne
    rw [h1]
    exact hInv.recv_live hne
  · intro t ht
    rw [h3] at ht
    rw [h4]
    exact hInv.handle_lt t ht

/-- Joining a thread that is not running changes nothing. -/
theorem joinThread_of_not_live {results : Nat → BestMove} {s : SysState}
    {t : Nat} (h : t ∉ liveIds s) : joinThread results s t = s := by
  unfold joinThread
  rw [if_neg h]

/-- Bookkeeping fields `joinThread` does not touch. -/
theorem joinThread_fields (results : Nat → BestMove) (s : SysState) (t : Nat) :
    (joinThread results s t).engine_name = s.engine_name ∧
    (joinThread results s t).author = s.author ∧
    (joinThread results s t).next_id = s.next_id ∧
    (joinThread results s t).position = s.position ∧
    (joinThread results s t).output = s.output ∧
    (joinThread results s t).move_thread = s.move_thread ∧
    (joinThread results s t).best_move = s.best_move := by
  unfold joinThread
  by_cases hmem : t ∈ liveIds s
  · rw [if_pos hmem]
    exact ⟨rfl, rfl, rfl, rfl, rfl, rfl, rfl⟩
  · rw [if_neg hmem]
    exact ⟨rfl, rfl, rfl, rfl, rfl, rfl, rfl⟩

/-- Joining a thread when every running thread has its id leaves no
running thread. -/
theorem joinThread_live_nil {results : Nat → BestMove} {s : SysState} {t : Nat}
    (hall : ∀ task ∈ s.live, task.id = t) :
    (joinThread results s t).live = [] := by
  unfold joinThread
  by_cases hmem : t ∈ liveIds s
  · rw [if_pos hmem]
    exact List.filter_eq_nil_iff.mpr (fun task hm => by simp [hall task hm])
  · rw [if_neg hmem]
    cases hl : s.live with
    | nil => rfl
    | cons a l =>
        exfalso
        apply hmem
        unfold liveIds
        rw [hl]
        exact List.mem_map.mpr
          ⟨a, List.mem_cons_self a l, hall a (by rw [hl]; exact List.mem_cons_self a l)⟩

/-- Bookkeeping fields `killThread` does not touch. -/
theorem killThread_fields (results : Nat → BestMove) (s : SysState) :
    (killThread results s).engine_name = s.engine_name ∧
    (killThread results s).author = s.author ∧
    (killThread results s).next_id = s.next_id ∧
    (killThread results s).position = s.position ∧
    (killThread results s).output = s.output := by
  unfold killThread
  cases s.move_thread with
  | none => exact ⟨rfl, rfl, rfl, rfl, rfl⟩
  | some t =>
      obtain ⟨h1, h2, h3, h4, h5, _, _⟩ :=
        joinThread_fields results
          { s with send_queue := s.send_queue ++ ["stop"], move_thread := some t } t
      exact ⟨h1, h2, h3, h4, h5⟩

/-- After the kill phase of the `go` handler no thread is running. -/
theorem killThread_live {results : Nat → BestMove} {s : SysState}
    (hInv : Inv results s) : (killThread results s).live = [] := by
  unfold killThread
  cases hmt : s.move_thread with
  | none => exact live_nil_of_handle_none hInv hmt
  | some t =>
      have hall : ∀ task ∈ s.live, task.id = t := by
        intro task hm
        have h2 := hInv.live_handle task hm
        rw [hmt] at h2
        injection h2 with h3
        exact h3.symm
      exact @joinThread_live_nil results
        { s with send_queue := s.send_queue ++ ["stop"], move_thread := some t }
        t hall

/-- The handle is cleared by the kill phase. -/
theorem killThread_handle (results : Nat → BestMove) (s : SysState) :
    (killThread results s).move_thread = none := by
  unfold killThread
  cases hmt : s.move_thread with
  | none => exact hmt
  | some t => rfl

/-- Preservation of the invariant by a successful `go`. -/
theorem inv_goBranch {results : Nat → BestMove} {s s1 : SysState} {c : String}
    (hInv : Inv results s) (h : goBranch results s c = .ok s1) :
    Inv results s1 := by
  unfold goBranch at h
  cases hp : goLoop (split_space c).tail 0 0 with
  | none => rw [hp] at h; exact absurd h (by simp)
  | some td =>
      obtain ⟨t, d⟩ := td
      rw [hp] at h
      rw [Outcome.ok.injEq] at h
      subst h
      obtain ⟨he, hau, hn, hpos, hout⟩ := killThread_fields results s
      have hlive := killThread_live hInv
      constructor
      · simpa [startThread, drain, he] using hInv.names_engine
      · simpa [startThread, drain, hau] using hInv.names_author
      · simp [startThread, drain, hlive]
      · intro task hm
        simp [startThread, drain, hlive] at hm
        simp [startThread, drain, hm]
      · intro m hm
        simp [startThread, drain] at hm
      · simp [startThread, drain]
      · intro hne
        simp [startThread, drain] at hne
      · intro u hu
        simp [startThread, drain] at hu
        simp [startThread, drain, hu]

/-- A successful `position` command only rewrites the `position` field. -/
theorem positionBranch_ok {Board : Type} {R : Rules Board} {s s1 : SysState}
    {c : String} (h : positionBranch R s c = .ok s1) :
    ∃ p, s1 = { s with position := p } := by
  simp only [positionBranch] at h
  split at h
  · exact absurd h (by simp)
  · split at h
    · exact absurd h (by simp)
    · split at h
      · split at h
        · exact absurd h (by simp)
        · rw [Outcome.ok.injEq] at h
          subst h
          split
          · split
            · exact ⟨_, rfl⟩
            · exact ⟨_, rfl⟩
          · exact ⟨_, rfl⟩
      · rw [Outcome.ok.injEq] at h
        subst h
        split
        · split
          · exact ⟨_, rfl⟩
          · exact ⟨_, rfl⟩
        · exact ⟨_, rfl⟩

/-- Preservation of the invariant by joining or by a spontaneous finish. -/
theorem inv_joinThread {results : Nat → BestMove} {s : SysState} {t : Nat}
    (hInv : Inv results s) : Inv results (joinThread results s t) := by
  unfold joinThread
  by_cases hmem : t ∈ liveIds s
  · rw [if_pos hmem]
    obtain ⟨task, hmem2, hid⟩ := List.mem_map.mp hmem
    have hmt : s.move_thread = some t := by
      rw [← hid]
      exact hInv.live_handle task hmem2
    have hrecv : s.recv_queue = [] := by
      by_contra hne
      have hl := hInv.recv_live hne
      rw [hl] at hmem2
      cases hmem2
    have hsing : s.live = [task] :=
      eq_singleton_of_mem_of_len_le hInv.live_le hmem2
    constructor <;>
      simp [hsing, hid, hrecv, hmt, hInv.names_engine, hInv.names_author,
        hInv.handle_lt t hmt]
  · rw [if_neg hmem]
    exact hInv

/-- Preservation of the invariant by `check_best_move`. -/
theorem inv_check {results : Nat → BestMove} {s : SysState}
    (hInv : Inv results s) : Inv results (check_best_move results s).2 := by
  cases hmt : s.move_thread with
  | none =>
      simp only [check_best_move, hmt, checkRecv]
      cases hr : s.recv_queue with
      | nil => exact hInv
      | cons m rest =>
          have hm := hInv.recv_handle m (by rw [hr]; exact List.mem_cons_self m rest)
          rw [hmt] at hm
          simp at hm
  | some t =>
      by_cases hmem : t ∈ liveIds s
      · simp only [check_best_move, hmt, if_pos hmem]
        exact hInv
      · have hlive : s.live = [] := by
          cases hl : s.live with
          | nil => rfl
          | cons a l =>
              exfalso
              apply hmem
              have ha := hInv.live_handle a (by rw [hl]; exact List.mem_cons_self a l)
              rw [hmt] at ha
              injection ha with ha2
              unfold liveIds
              rw [hl]
              exact List.mem_map.mpr ⟨a, List.mem_cons_self a l, ha2.symm⟩
        simp only [check_best_move, hmt, if_neg hmem,
          @joinThread_of_not_live results s t hmem, checkRecv]
        cases hr : s.recv_queue with
        | nil =>
            constructor <;>
              simp [hlive, hr, hInv.names_engine, hInv.names_author]
        | cons m rest =>
            have hrest : rest = [] := by
              have hle := hInv.recv_le
              rw [hr] at hle
              simpa using hle
            constructor <;>
              simp [emitBest, hlive, hrest, hInv.names_engine, hInv.names_author]

/-- Preservation of the invariant by a successful `stop`. -/
theorem inv_stopBranch {results : Nat → BestMove} {s s1 : SysState}
    (hInv : Inv results s) (h : stopBranch results s = .ok s1) :
    Inv results s1 := by
  simp only [stopBranch] at h
  cases hr : s.recv_queue with
  | cons m rest =>
      have hmval := hInv.recv_handle m (by rw [hr]; exact List.mem_cons_self m rest)
      have hrest : rest = [] := by
        have hle := hInv.recv_le
        rw [hr] at hle
        simpa using hle
      have hlive : s.live = [] := hInv.recv_live (by rw [hr]; simp)
      cases hmt : s.move_thread with
      | none =>
          rw [hmt] at hmval
          simp at hmval
      | some t =>
          simp only [hr, stopTake, hmt, joinThread, liveIds, hlive] at h
          simp only [List.map_nil, List.not_mem_nil, if_false] at h
          rw [Outcome.ok.injEq] at h
          subst h
          constructor <;>
            simp [emitBest, hlive, hrest, hmt, hInv.names_engine, hInv.names_author,
              hInv.handle_lt t hmt]
  | nil =>
      cases hl : s.live with
      | nil =>
          simp only [hr, hl] at h
          exact absurd h (by simp)
      | cons task rest2 =>
          have hmt : s.move_thread = some task.id :=
            hInv.live_handle task (by rw [hl]; exact List.mem_cons_self task rest2)
          have hrest2 : rest2 = [] := by
            have hle := hInv.live_le
            rw [hl] at hle
            simpa using hle
          simp only [hr, hl, hrest2, stopTake, hmt, joinThread, liveIds] at h
          simp only [List.nil_append, List.map_nil, List.not_mem_nil, if_false] at h
          rw [Outcome.ok.injEq] at h
          subst h
          constructor <;>
            simp [emitBest, hrest2, hmt, hInv.names_engine, hInv.names_author,
              hInv.handle_lt task.id hmt]

/-- Preservation of the invariant by any successful step. -/
theorem inv_step {Board : Type} {R : Rules Board} {results : Nat → BestMove}
    {s s1 : SysState} {ev : Ev} (hInv : Inv results s)
    (h : step R results s ev = .ok s1) : Inv results s1 := by
  cases ev with
  | finish t =>
      simp only [step, taskFinish] at h
      rw [Outcome.ok.injEq] at h
      subst h
      exact inv_joinThread hInv
  | poll =>
      simp only [step] at h
      rw [Outcome.ok.injEq] at h
      subst h
      exact inv_check hInv
  | cmd line =>
      simp only [step, process_command] at h
      split at h
      · rw [Outcome.ok.injEq] at h
        subst h
        exact inv_core hInv rfl rfl rfl rfl rfl rfl
      · split at h
        · rw [Outcome.ok.injEq] at h
          subst h
          exact inv_core hInv rfl rfl rfl rfl rfl rfl
        · split at h
          · obtain ⟨p, rfl⟩ := positionBranch_ok h
            exact inv_core hInv rfl rfl rfl rfl rfl rfl
          · split at h
            · exact inv_goBranch hInv h
            · split at h
              · exact inv_stopBranch hInv h
              · split at h
                · rw [Outcome.ok.injEq] at h
                  subst h
                  exact inv_core hInv rfl rfl rfl rfl rfl rfl
                · split at h
                  · rw [Outcome.ok.injEq] at h
                    subst h
                    exact hInv
                  · split at h
                    · exact absurd h (by simp)
                    · rw [Outcome.ok.injEq] at h
                      subst h
                      exact hInv

/-- Preservation of the invariant along any successful run. -/
theorem inv_run {Board : Type} {R : Rules Board} {results : Nat → BestMove} :
    ∀ {evs : List Ev} {s s1 : SysState}, Inv results s →
      run R results s evs = .ok s1 → Inv results s1 := by
  intro evs
  induction evs with
  | nil =>
      intro s s1 hInv h
      simp only [run] at h
      rw [Outcome.ok.injEq] at h
      subst h
      exact hInv
  | cons e es ih =>
      intro s s1 hInv h
      simp only [run] at h
      cases hs : step R results s e with
      | ok s2 =>
          rw [hs] at h
          exact ih (inv_step hInv hs) h
      | err s2 => rw [hs] at h; exact absurd h (by simp)
      | hang s2 => rw [hs] at h; exact absurd h (by simp)
      | exit s2 => rw [hs] at h; exact absurd h (by simp)

/-! ## Behaviour of the individual handlers -/

/-- Guard under which the `if`/`elif` chain of `process_command` reaches
the `go` branch. -/
def isGoLine (c : String) : Bool :=
  (!decide (c = "uci")) && (!decide (c = "isready")) &&
    (!starts_with c "position") && starts_with c "go"

/-- Guard under which the chain reaches the `position` branch. -/
def isPositionLine (c : String) : Bool :=
  (!decide (c = "uci")) && (!decide (c = "isready")) && starts_with c "position"

/-- Dispatch of a line satisfying the `go` guard. -/
theorem process_go {Board : Type} (R : Rules Board) (results : Nat → BestMove)
    (s : SysState) {c : String} (h : isGoLine c = true) :
    process_command R results s c = goBranch results s c := by
  simp only [isGoLine, Bool.and_eq_true, Bool.not_eq_true', decide_eq_false_iff_not,
    Bool.not_eq_true] at h
  obtain ⟨⟨⟨h1, h2⟩, h3⟩, h4⟩ := h
  simp only [process_command, if_neg h1, if_neg h2, h3, h4, Bool.false_eq_true,
    if_false, if_true]

/-- Dispatch of a line satisfying the `position` guard. -/
theorem process_position {Board : Type} (R : Rules Board)
    (results : Nat → BestMove) (s : SysState) {c : String}
    (h : isPositionLine c = true) :
    process_command R results s c = positionBranch R s c := by
  simp only [isPositionLine, Bool.and_eq_true, Bool.not_eq_true',
    decide_eq_false_iff_not, Bool.not_eq_true] at h
  obtain ⟨⟨h1, h2⟩, h3⟩ := h
  simp only [process_command, if_neg h1, if_neg h2, h3, if_true]

/-- Dispatch of the literal `stop` line. -/
theorem process_stop {Board : Type} (R : Rules Board) (results : Nat → BestMove)
    (s : SysState) : process_command R results s "stop" = stopBranch results s := by
  have h1 : ¬("stop" = "uci") := by decide
  have h2 : ¬("stop" = "isready") := by decide
  have h3 : starts_with "stop" "position" = false := by decide
  have h4 : starts_with "stop" "go" = false := by decide
  have h5 : starts_with "stop" "stop" = true := by decide
  simp only [process_command, if_neg h1, if_neg h2, h3, h4, h5, Bool.false_eq_true,
    if_false, if_true]

/-- Elimination form of a successful `go`. -/
theorem goBranch_ok_elim {results : Nat → BestMove} {s s2 : SysState} {c : String}
    (h : goBranch results s c = .ok s2) :
    ∃ t d, goLoop (split_space c).tail 0 0 = some (t, d) ∧
      s2 = startThread (drain (killThread results s)) t d := by
  simp only [goBranch] at h
  cases hp : goLoop (split_space c).tail 0 0 with
  | none => rw [hp] at h; exact absurd h (by simp)
  | some td =>
      obtain ⟨t, d⟩ := td
      rw [hp] at h
      rw [Outcome.ok.injEq] at h
      exact ⟨t, d, rfl, h.symm⟩

/-- The state after a successful `go` from an invariant state: the old
thread is gone, both queues are empty, the handle holds the fresh task id,
the single running thread carries the position of the session and the
limits parsed from this command alone, and nothing was printed. -/
theorem go_ok_state {results : Nat → BestMove} {s s2 : SysState} {c : String}
    (hInv : Inv results s) (h : goBranch results s c = .ok s2) :
    ∃ t d, goLoop (split_space c).tail 0 0 = some (t, d) ∧
      s2.live = [⟨s.next_id, s.position, t, d⟩] ∧
      s2.move_thread = some s.next_id ∧
      s2.next_id = s.next_id + 1 ∧
      s2.send_queue = [] ∧
      s2.recv_queue = [] ∧
      s2.output = s.output ∧
      s2.position = s.position := by
  obtain ⟨t, d, hp, rfl⟩ := goBranch_ok_elim h
  obtain ⟨he, hau, hn, hpos, hout⟩ := killThread_fields results s
  have hlive := killThread_live hInv
  exact ⟨t, d, hp,
    by simp [startThread, drain, hlive, hn, hpos],
    by simp [startThread, drain, hn],
    by simp [startThread, drain, hn],
    by simp [startThread, drain],
    by simp [startThread, drain],
    by simp [startThread, drain, hout],
    by simp [startThread, drain, hpos]⟩

/-- The state after a successful `stop` from an invariant state: the
result of the handled task was taken and printed as a single `bestmove`
line, the thread has exited, the queues record the cancellation token and
the emptied result queue, and the handle is NOT cleared. -/
theorem stopBranch_spec {results : Nat → BestMove} {s s1 : SysState}
    (hInv : Inv results s) (h : stopBranch results s = .ok s1) :
    ∃ u, s.move_thread = some u ∧
      s1.move_thread = some u ∧
      s1.next_id = s.next_id ∧
      s1.live = [] ∧
      s1.recv_queue = [] ∧
      s1.best_move = some (results u) ∧
      s1.send_queue = s.send_queue ++ ["stop"] ∧
      s1.output = s.output ++ [render (results u)] ∧
      s1.position = s.position ∧
      s1.engine_name = s.engine_name ∧
      s1.author = s.author := by
  simp only [stopBranch] at h
  cases hr : s.recv_queue with
  | cons m rest =>
      have hmval := hInv.recv_handle m (by rw [hr]; exact List.mem_cons_self m rest)
      have hrest : rest = [] := by
        have hle := hInv.recv_le
        rw [hr] at hle
        simpa using hle
      have hlive : s.live = [] := hInv.recv_live (by rw [hr]; simp)
      cases hmt : s.move_thread with
      | none =>
          rw [hmt] at hmval
          simp at hmval
      | some t =>
          rw [hmt] at hmval
          simp only [Option.map] at hmval
          rw [Option.some.injEq] at hmval
          subst hmval
          simp only [hr, hrest, stopTake, hmt, joinThread, liveIds, hlive] at h
          simp only [List.map_nil, List.not_mem_nil, if_false] at h
          rw [Outcome.ok.injEq] at h
          subst h
          refine ⟨t, ?_, ?_, ?_, ?_, ?_, ?_, ?_, ?_, ?_, ?_, ?_⟩ <;>
            simp [emitBest, hlive, hrest]
  | nil =>
      cases hl : s.live with
      | nil =>
          simp only [hr, hl] at h
          exact absurd h (by simp)
      | cons task rest2 =>
          have hmt : s.move_thread = some task.id :=
            hInv.live_handle task (by rw [hl]; exact List.mem_cons_self task rest2)
          have hrest2 : rest2 = [] := by
            have hle := hInv.live_le
            rw [hl] at hle
            simpa using hle
          simp only [hr, hl, hrest2, stopTake, hmt, joinThread, liveIds] at h
          simp only [List.nil_append, List.map_nil, List.not_mem_nil, if_false] at h
          rw [Outcome.ok.injEq] at h
          subst h
          refine ⟨task.id, hmt, ?_, ?_, ?_, ?_, ?_, ?_, ?_, ?_, ?_, ?_⟩ <;>
            simp [emitBest, hrest2]

/-- When the handled thread is not running, no thread is. -/
theorem live_nil_of_not_mem {results : Nat → BestMove} {s : SysState} {t : Nat}
    (hInv : Inv results s) (hmt : s.move_thread = some t)
    (hmem : t ∉ liveIds s) : s.live = [] := by
  cases hl : s.live with
  | nil => rfl
  | cons a l =>
      exfalso
      apply hmem
      have ha := hInv.live_handle a (by rw [hl]; exact List.mem_cons_self a l)
      rw [hmt] at ha
      injection ha with ha2
      unfold liveIds
      rw [hl]
      exact List.mem_map.mpr ⟨a, List.mem_cons_self a l, ha2.symm⟩

/-- `stop` with an empty result queue and no running thread never returns:
the busy wait of lines 151-152 loops forever. -/
theorem stopBranch_hang {results : Nat → BestMove} {s : SysState}
    (hrecv : s.recv_queue = []) (hlive : s.live = []) :
    stopBranch results s =
      .hang { s with send_queue := s.send_queue ++ ["stop"] } := by
  simp only [stopBranch, hrecv, hlive]

/-- `check_best_move` on a still-running thread: `is_alive()` is true, so
it returns `False` at once without touching anything. -/
theorem check_spec_alive {results : Nat → BestMove} {s : SysState} {t : Nat}
    (hmt : s.move_thread = some t) (hmem : t ∈ liveIds s) :
    check_best_move results s = (false, s) := by
  simp only [check_best_move, hmt, if_pos hmem]

/-- `check_best_move` with no handle and an empty result queue: nothing to
do. -/
theorem check_no_thread {results : Nat → BestMove} {s : SysState}
    (hmt : s.move_thread = none) (hrecv : s.recv_queue = []) :
    check_best_move results s = (false, s) := by
  simp only [check_best_move, hmt, checkRecv, hrecv]

/-- `check_best_move` on a finished thread whose result was already
consumed: it joins the dead thread, clears the handle, finds the result
queue empty and reports nothing. -/
theorem check_done_empty {results : Nat → BestMove} {s : SysState} {t : Nat}
    (hmt : s.move_thread = some t) (hlive : s.live = [])
    (hrecv : s.recv_queue = []) :
    check_best_move results s = (false, { s with move_thread := none }) := by
  have hmem : t ∉ liveIds s := by simp [liveIds, hlive]
  simp only [check_best_move, hmt, if_neg hmem, joinThread_of_not_live hmem,
    checkRecv, hrecv]

/-- `check_best_move` on a finished thread with a pending result: it joins
the dead thread, clears the handle, consumes the result and prints the
`bestmove` line. -/
theorem check_done_result {results : Nat → BestMove} {s : SysState} {t : Nat}
    {m : BestMove} {rest : List BestMove}
    (hmt : s.move_thread = some t) (hmem : t ∉ liveIds s)
    (hrecv : s.recv_queue = m :: rest) :
    check_best_move results s =
      (true, emitBest
        { s with move_thread := none, best_move := some m, recv_queue := rest }
        m) := by
  simp only [check_best_move, hmt, if_neg hmem, joinThread_of_not_live hmem,
    checkRecv, hrecv]

/-- The protocol lines other than `bestmove` that the front end can print
(with the default identity strings of `initState`). -/
def protoLines : List String :=
  ["id name UCI Chess Engine",
   "id author (UCI Implementation) Jacob MacMillan Software Inc.",
   "uciok",
   "readyok"]

/-- Every rendered result line begins with the letter of `bestmove`. -/
theorem render_head (m : BestMove) : (render m).data.head? = some 'b' := by
  have hb : "bestmove ".data = 'b' :: ['e', 's', 't', 'm', 'o', 'v', 'e', ' '] := by
    decide
  cases m with
  | mv x => simp [render, String.data_append, hb]
  | mvPonder x p => simp [render, String.data_append, hb]

/-- A rendered result line is never one of the fixed protocol lines. -/
theorem render_notin_proto (m : BestMove) : render m ∉ protoLines := by
  intro hmem
  have h1 := render_head m
  simp only [protoLines, List.mem_cons, List.not_mem_nil, or_false] at hmem
  rcases hmem with h | h | h | h <;>
    (rw [h] at h1; exact absurd h1 (by decide))

/-- Output and handle bookkeeping of any successful step: the output only
grows, every appended line is a fixed protocol line or the rendered result
of the task handled just before the step, the fresh-id counter never
decreases, and a handle present after the step is the old handle or a
fresh id. -/
theorem step_out_handle {Board : Type} {R : Rules Board}
    {results : Nat → BestMove} {s s1 : SysState} {ev : Ev}
    (hInv : Inv results s) (h : step R results s ev = .ok s1) :
    (∃ new, s1.output = s.output ++ new ∧
        ∀ l ∈ new, l ∈ protoLines ∨
          ∃ u, s.move_thread = some u ∧ l = render (results u)) ∧
      s.next_id ≤ s1.next_id ∧
      (∀ u, s1.move_thread = some u → s.move_thread = some u ∨ s.next_id ≤ u) := by
  cases ev with
  | finish t =>
      simp only [step, taskFinish] at h
      rw [Outcome.ok.injEq] at h
      subst h
      obtain ⟨-, -, hn, -, hout, hmt, -⟩ := joinThread_fields results s t
      exact ⟨⟨[], by simp [hout], by simp⟩, hn.ge,
        fun u hu => Or.inl (by rw [← hmt]; exact hu)⟩
  | poll =>
      simp only [step] at h
      rw [Outcome.ok.injEq] at h
      subst h
      cases hmt : s.move_thread with
      | none =>
          have hrecv : s.recv_queue = [] := by
            cases hr : s.recv_queue with
            | nil => rfl
            | cons m rest =>
                have hm := hInv.recv_handle m
                  (by rw [hr]; exact List.mem_cons_self m rest)
                rw [hmt] at hm
                simp at hm
          rw [check_no_thread hmt hrecv]
          exact ⟨⟨[], by simp, by simp⟩, le_refl _,
            fun u hu => Or.inl (by rw [← hmt]; exact hu)⟩
      | some t =>
          by_cases hmem : t ∈ liveIds s
          · rw [check_spec_alive hmt hmem]
            exact ⟨⟨[], by simp, by simp⟩, le_refl _,
              fun u hu => Or.inl (by rw [← hmt]; exact hu)⟩
          · cases hr : s.recv_queue with
            | nil =>
                rw [check_done_empty hmt (live_nil_of_not_mem hInv hmt hmem) hr]
                refine ⟨⟨[], by simp, by simp⟩, le_refl _, fun u hu => ?_⟩
                simp at hu
            | cons m rest =>
                rw [check_done_result hmt hmem hr]
                have hm := hInv.recv_handle m
                  (by rw [hr]; exact List.mem_cons_self m rest)
                rw [hmt] at hm
                simp only [Option.map] at hm
                rw [Option.some.injEq] at hm
                subst hm
                refine ⟨⟨[render (results t)], by simp [emitBest], ?_⟩,
                  le_refl _, fun u hu => ?_⟩
                · intro l hl
                  simp only [List.mem_singleton] at hl
                  subst hl
                  exact Or.inr ⟨t, rfl, rfl⟩
                · simp [emitBest] at hu
  | cmd line =>
      simp only [step, process_command] at h
      split at h
      · rw [Outcome.ok.injEq] at h
        subst h
        refine ⟨⟨_, rfl, ?_⟩, le_refl _, fun u hu => Or.inl hu⟩
        intro l hl
        left
        simp only [List.mem_cons, List.not_mem_nil, or_false] at hl
        rcases hl with rfl | rfl | rfl
        · rw [hInv.names_engine]; decide
        · rw [hInv.names_author]; decide
        · decide
      · split at h
        · rw [Outcome.ok.injEq] at h
          subst h
          refine ⟨⟨["readyok"], rfl, ?_⟩, le_refl _, fun u hu => Or.inl hu⟩
          intro l hl
          simp only [List.mem_singleton] at hl
          subst hl
          left
          decide
        · split at h
          · obtain ⟨p, rfl⟩ := positionBranch_ok h
            exact ⟨⟨[], by simp, by simp⟩, le_refl _, fun u hu => Or.inl hu⟩
          · split at h
            · obtain ⟨t, d, hp, hlive2, hmt2, hnext2, hsend2, hrecv2, hout2, hpos2⟩ :=
                go_ok_state hInv h
              refine ⟨⟨[], by rw [hout2]; simp, by simp⟩, ?_, fun u hu => ?_⟩
              · rw [hnext2]; exact Nat.le_succ _
              · rw [hmt2] at hu
                injection hu with hu2
                exact Or.inr (le_of_eq hu2)
            · split at h
              · obtain ⟨u0, hsm, hs1m, hnext, -, -, -, -, hout, -, -, -⟩ :=
                  stopBranch_spec hInv h
                refine ⟨⟨[render (results u0)], by rw [hout], ?_⟩, hnext.ge,
                  fun u hu => ?_⟩
                · intro l hl
                  simp only [List.mem_singleton] at hl
                  subst hl
                  exact Or.inr ⟨u0, hsm, rfl⟩
                · rw [hs1m] at hu
                  injection hu with hu2
                  subst hu2
                  exact Or.inl hsm
              · split at h
                · rw [Outcome.ok.injEq] at h
                  subst h
                  exact ⟨⟨[], by simp, by simp⟩, le_refl _, fun u hu => Or.inl hu⟩
                · split at h
                  · rw [Outcome.ok.injEq] at h
                    subst h
                    exact ⟨⟨[], by simp, by simp⟩, le_refl _, fun u hu => Or.inl hu⟩
                  · split at h
                    · exact absurd h (by simp)
                    · rw [Outcome.ok.injEq] at h
                      subst h
                      exact ⟨⟨[], by simp, by simp⟩, le_refl _, fun u hu => Or.inl hu⟩

/-- A task id is superseded in a state when it is below the fresh-id
counter and below any handled id. -/
def Super (t1 : Nat) (s : SysState) : Prop :=
  t1 < s.next_id ∧ ∀ u, s.move_thread = some u → t1 < u

/-- Supersession is preserved by every successful step. -/
theorem super_step {Board : Type} {R : Rules Board} {results : Nat → BestMove}
    {s s1 : SysState} {ev : Ev} {t1 : Nat} (hInv : Inv results s)
    (hS : Super t1 s) (h : step R results s ev = .ok s1) : Super t1 s1 := by
  obtain ⟨-, hnext, hhandle⟩ := step_out_handle hInv h
  refine ⟨lt_of_lt_of_le hS.1 hnext, fun u hu => ?_⟩
  rcases hhandle u hu with hold | hfresh
  · exact hS.2 u hold
  · exact lt_of_lt_of_le hS.1 hfresh

/-- Along any successful run from a state where a task id is superseded,
the rendered result of that task is never printed (up to lines that were
already on the output). -/
theorem run_no_old_render {Board : Type} {R : Rules Board}
    {results : Nat → BestMove} {t1 : Nat}
    (hdist : ∀ u, t1 < u → render (results u) ≠ render (results t1)) :
    ∀ {evs : List Ev} {s s1 : SysState}, Inv results s → Super t1 s →
      run R results s evs = .ok s1 →
      ∀ l ∈ s1.output, l ∈ s.output ∨ l ≠ render (results t1) := by
  intro evs
  induction evs with
  | nil =>
      intro s s1 hInv hS h
      simp only [run] at h
      rw [Outcome.ok.injEq] at h
      subst h
      exact fun l hl => Or.inl hl
  | cons e es ih =>
      intro s s1 hInv hS h
      simp only [run] at h
      cases hs : step R results s e with
      | ok s2 =>
          rw [hs] at h
          intro l hl
          rcases ih (inv_step hInv hs) (super_step hInv hS hs) h l hl with h2 | h2
          · obtain ⟨⟨new, hout, hnew⟩, -, -⟩ := step_out_handle hInv hs
            rw [hout] at h2
            rcases List.mem_append.mp h2 with h3 | h3
            · exact Or.inl h3
            · rcases hnew l h3 with h4 | ⟨u, hu, rfl⟩
              · refine Or.inr (fun he => ?_)
                rw [he] at h4
                exact render_notin_proto (results t1) h4
              · exact Or.inr (hdist u (hS.2 u hu))
          · exact Or.inr h2
      | err s2 => rw [hs] at h; exact absurd h (by simp)
      | hang s2 => rw [hs] at h; exact absurd h (by simp)
      | exit s2 => rw [hs] at h; exact absurd h (by simp)

/-- Constructive form of a `stop` on a running thread: the busy wait ends
when the cancelled task deposits its single result; the result is taken,
the thread joined, and the `bestmove` line printed. -/
theorem stop_ok_of_live {results : Nat → BestMove} {s : SysState} {t : Nat}
    {task : Task} (hmt : s.move_thread = some t) (hlive : s.live = [task])
    (hid : task.id = t) (hrecv : s.recv_queue = []) :
    stopBranch results s =
      .ok (emitBest
        { s with send_queue := s.send_queue ++ ["stop"],
                 recv_queue := [],
                 best_move := some (results t),
                 live := [] } (results t)) := by
  simp only [stopBranch, hrecv, hlive, hid, stopTake, List.nil_append, hmt,
    joinThread, liveIds, List.map_nil, List.not_mem_nil, if_false]

/-- A convenient fixed result environment: every task answers `e2e4`. -/
def res1 : Nat → BestMove := fun _ => .mv "e2e4"

/-- A result environment distinguishing the first task from later ones. -/
def res2 : Nat → BestMove := fun t =>
  match t with
  | 0 => .mv "a1a2"
  | _ + 1 => .mv "b1b2"

/-- The state reached from a fresh session by `go movetime 0`. -/
def sAfterGo0 : SysState :=
  { position := "startpos"
    best_move := none
    time_limit := 0
    max_depth := 0
    send_queue := []
    recv_queue := []
    move_thread := some 0
    author := "(UCI Implementation) Jacob MacMillan Software Inc."
    engine_name := "UCI Chess Engine"
    live := [⟨0, "startpos", 0, 0⟩]
    next_id := 1
    output := [] }

/-! ## The claims -/

/-- C1: along every processed sequence of command lines (interleaved with
task finishes and driver polls), at most one search thread is ever
running; moreover a `go` processed while a task is active leaves the old
thread joined (no longer running) and exactly the fresh task running, so
two search tasks never run concurrently. -/
theorem c1_at_most_one_search_task {Board : Type} (R : Rules Board)
    (results : Nat → BestMove) :
    (∀ evs s, run R results initState evs = .ok s → s.live.length ≤ 1) ∧
    (∀ evs s1 t g s2, run R results initState evs = .ok s1 →
      s1.move_thread = some t → isGoLine g = true →
      process_command R results s1 g = .ok s2 →
      t ∉ liveIds s2 ∧ liveIds s2 = [s1.next_id] ∧ t < s1.next_id) := by
  constructor
  · intro evs s h
    exact (inv_run (inv_initState results) h).live_le
  · intro evs s1 t g s2 hreach hmt hg hp
    have hInv := inv_run (inv_initState results) hreach
    rw [process_go R results s1 hg] at hp
    obtain ⟨tl, dl, hparse, hlive2, hmt2, -, -, -, -, -⟩ := go_ok_state hInv hp
    have hlt := hInv.handle_lt t hmt
    refine ⟨?_, ?_, hlt⟩
    · simp only [liveIds, hlive2, List.map_cons, List.map_nil, List.mem_singleton]
      omega
    · simp [liveIds, hlive2]

/-- Witness for C1 on a concrete session: two `go` commands, a natural
finish and a poll. -/
theorem c1_witness :
    ∃ s, run toyRules res1 initState
        [.cmd "go movetime 5", .cmd "go depth 2", .finish 1, .poll] = .ok s ∧
      s.live.length ≤ 1 := by
  refine ⟨_, rfl, ?_⟩
  exact (c1_at_most_one_search_task toyRules res1).1
    [.cmd "go movetime 5", .cmd "go depth 2", .finish 1, .poll] _ rfl

/-- C3: processing `stop` in a state with one running task puts the
cancellation token on the control queue, blocks until the result queue
yields the value the task sends when cancelled, joins the thread, and
appends exactly one output line, of the form `bestmove m` for a plain
string result and `bestmove m ponder p` for a pair result. -/
theorem c3_stop_reports_exactly_one_line {Board : Type} (R : Rules Board)
    (results : Nat → BestMove) {s : SysState} {t : Nat} {task : Task}
    (hmt : s.move_thread = some t) (hlive : s.live = [task]) (hid : task.id = t)
    (hrecv : s.recv_queue = []) :
    ∃ s1, process_command R results s "stop" = .ok s1 ∧
      s1.send_queue = s.send_queue ++ ["stop"] ∧
      s1.live = [] ∧
      s1.best_move = some (results t) ∧
      s1.output = s.output ++ [render (results t)] ∧
      (∀ m, results t = .mv m → render (results t) = "bestmove " ++ m) ∧
      (∀ m p, results t = .mvPonder m p →
        render (results t) = "bestmove " ++ m ++ " ponder " ++ p) := by
  rw [process_stop]
  rw [stop_ok_of_live hmt hlive hid hrecv]
  refine ⟨_, rfl, by simp [emitBest], by simp [emitBest], by simp [emitBest],
    by simp [emitBest], ?_, ?_⟩
  · intro m hm
    rw [hm]
    rfl
  · intro m p hm
    rw [hm]
    rfl

/-- Witness for C3: `go movetime 0` from a fresh session immediately
followed by `stop` produces exactly one `bestmove` line. -/
theorem c3_witness :
    (process_command toyRules res1 initState "go movetime 0" = .ok sAfterGo0) ∧
    ∃ s1, process_command toyRules res1 sAfterGo0 "stop" = .ok s1 ∧
      s1.send_queue = sAfterGo0.send_queue ++ ["stop"] ∧
      s1.live = [] ∧
      s1.best_move = some (res1 0) ∧
      s1.output = sAfterGo0.output ++ [render (res1 0)] ∧
      (∀ m, res1 0 = .mv m → render (res1 0) = "bestmove " ++ m) ∧
      (∀ m p, res1 0 = .mvPonder m p →
        render (res1 0) = "bestmove " ++ m ++ " ponder " ++ p) := by
  refine ⟨by decide, ?_⟩
  exact c3_stop_reports_exactly_one_line toyRules res1 rfl rfl rfl rfl

/-- C10: a `stop` processed when no search thread is running and the
result queue is empty never returns: the busy wait of lines 151-152 can
never observe a message. -/
theorem c10_stop_hangs {Board : Type} (R : Rules Board)
    (results : Nat → BestMove) (s : SysState)
    (hrecv : s.recv_queue = []) (hlive : s.live = []) :
    process_command R results s "stop" =
      .hang { s with send_queue := s.send_queue ++ ["stop"] } := by
  rw [process_stop]
  exact stopBranch_hang hrecv hlive

/-- Witness for C10: `stop` in a fresh session hangs. -/
theorem c10_witness :
    process_command toyRules res1 initState "stop" =
      .hang { initState with send_queue := ["stop"] } := by
  have h := c10_stop_hangs toyRules res1 initState rfl rfl
  simpa using h

/-- C2: processing a second `go` while a task is active cancels and joins
the first task, discards its result, and empties both queues before the
new task is started (and prints nothing itself); afterwards the first
task is superseded for good, so its rendered result can never appear on
the output of any later state of the run. -/
theorem c2_superseded_result_never_emitted {Board : Type} (R : Rules Board)
    (results : Nat → BestMove) (evs0 evs : List Ev) (s1 s2 s3 : SysState)
    (g : String) (t1 : Nat)
    (hreach : run R results initState evs0 = .ok s1)
    (hmt : s1.move_thread = some t1)
    (hdist : ∀ u, t1 < u → render (results u) ≠ render (results t1))
    (hpre : render (results t1) ∉ s1.output)
    (hg : isGoLine g = true)
    (hgo : process_command R results s1 g = .ok s2)
    (hrun : run R results s2 evs = .ok s3) :
    s2.send_queue = [] ∧ s2.recv_queue = [] ∧ s2.output = s1.output ∧
      t1 ∉ liveIds s2 ∧ s2.move_thread = some s1.next_id ∧
      render (results t1) ∉ s3.output := by
  have hInv1 := inv_run (inv_initState results) hreach
  rw [process_go R results s1 hg] at hgo
  obtain ⟨t, d, hp, hlive2, hmt2, hnext2, hsend2, hrecv2, hout2, hpos2⟩ :=
    go_ok_state hInv1 hgo
  have hInv2 : Inv results s2 := inv_goBranch hInv1 hgo
  have ht1 : t1 < s1.next_id := hInv1.handle_lt t1 hmt
  have hSuper : Super t1 s2 := by
    refine ⟨by rw [hnext2]; omega, fun u hu => ?_⟩
    rw [hmt2] at hu
    injection hu with hu2
    omega
  refine ⟨hsend2, hrecv2, hout2, ?_, hmt2, ?_⟩
  · simp only [liveIds, hlive2, List.map_cons, List.map_nil, List.mem_singleton]
    omega
  · intro hmem
    rcases run_no_old_render hdist hInv2 hSuper hrun _ hmem with h2 | h2
    · rw [hout2] at h2
      exact hpre h2
    · exact h2 rfl

/-- State after `go movetime 100` in a fresh session under `res2`. -/
def c2s1 : SysState :=
  { initState with move_thread := some 0, live := [⟨0, "startpos", 100, 0⟩],
                   next_id := 1 }

/-- State after a superseding `go depth 3`. -/
def c2s2 : SysState :=
  { initState with move_thread := some 1, live := [⟨1, "startpos", 0, 3⟩],
                   next_id := 2 }

/-- State after the second task finishes and the driver polls. -/
def c2s3 : SysState :=
  { initState with best_move := some (.mv "b1b2"), move_thread := none,
                   live := [], next_id := 2, output := ["bestmove b1b2"] }

/-- Witness for C2: only the second result line ever appears. -/
theorem c2_witness :
    run toyRules res2 initState [.cmd "go movetime 100"] = .ok c2s1 ∧
    process_command toyRules res2 c2s1 "go depth 3" = .ok c2s2 ∧
    run toyRules res2 c2s2 [.finish 1, .poll] = .ok c2s3 ∧
    render (res2 0) ∉ c2s3.output ∧
    render (res2 1) ∈ c2s3.output := by
  refine ⟨by decide, by decide, by decide, ?_, by decide⟩
  have hd : ∀ u, 0 < u → render (res2 u) ≠ render (res2 0) := by
    intro u hu
    cases u with
    | zero => omega
    | succ n =>
        show render (.mv "b1b2") ≠ render (.mv "a1a2")
        decide
  exact (c2_superseded_result_never_emitted toyRules res2 [.cmd "go movetime 100"]
    [.finish 1, .poll] c2s1 c2s2 c2s3 "go depth 3" 0 (by decide) (by decide) hd
    (by decide) (by decide) (by decide) (by decide)).2.2.2.2.2

/-- C4 (code evaluated at the failing input): processing
`position startpos moves e2e4 e7e5` never replays the moves — whatever
the rules library makes of the string `"startpos"`, the `moves` clause is
skipped because `args[8] == "moves"` can only hold for the `fen` form;
and with the faithful adapter, which rejects `"startpos"` as
`chess.Board` does, the command raises and leaves `position` holding the
literal `"startpos"` instead of the FEN of the position after the moves. -/
theorem c4_position_startpos_broken {Board : Type} (R : Rules Board)
    (results : Nat → BestMove) (s : SysState) :
    process_command R results s "position startpos moves e2e4 e7e5" =
      (match R.fromFen "startpos" with
        | none => .err { s with position := "startpos" }
        | some b => .ok { s with position := R.fen b }) ∧
    process_command toyRules res1 initState "position startpos moves e2e4 e7e5" =
      .err { initState with position := "startpos" } := by
  constructor
  · have h1 : ¬("position startpos moves e2e4 e7e5" = "uci") := by decide
    have h2 : ¬("position startpos moves e2e4 e7e5" = "isready") := by decide
    have h3 : starts_with "position startpos moves e2e4 e7e5" "position" = true := by
      decide
    have hsplit : split_space "position startpos moves e2e4 e7e5" =
        ["position", "startpos", "moves", "e2e4", "e7e5"] := by decide
    simp only [process_command, if_neg h1, if_neg h2, h3, if_true]
    cases hf : R.fromFen "startpos" with
    | none => simp [positionBranch, hsplit, hf]
    | some b => simp [positionBranch, hsplit, hf]
  · decide

/-- A session whose position differs from the starting position. -/
def c5prior : SysState :=
  { initState with position := "k7/8/8/8/8/8/8/K7 w - - 0 1" }

/-- Counterexample for C5: a `position` command with the malformed move
token `zz99` fails, but the `position` field does not keep its prior
value — it has been overwritten with the base descriptor of the failed
command. -/
theorem c5_counterexample :
    process_command toyRules res1 c5prior
        ("position fen " ++ startFen ++ " moves zz99") =
      .err { c5prior with position := startFen } ∧
    startFen ≠ c5prior.position := by
  constructor <;> decide

/-- C5 amended: a `position fen ... moves ...` command whose move replay
fails raises an error, and the session is left with `position` already
overwritten by the base descriptor parsed from this very command (the
update is not all-or-nothing). -/
theorem c5_amended {Board : Type} (R : Rules Board) (results : Nat → BestMove)
    (s : SysState) (c f1 f2 f3 f4 f5 f6 mv : String) (b : Board)
    (hc : starts_with c "position" = true)
    (hsplit : split_space c =
      ["position", "fen", f1, f2, f3, f4, f5, f6, "moves", mv])
    (hfen : R.fromFen (String.intercalate " " [f1, f2, f3, f4, f5, f6]) = some b)
    (hmv : R.pushUci b mv = none) :
    process_command R results s c =
      .err { s with position :=
        String.intercalate " " [f1, f2, f3, f4, f5, f6] } := by
  have h1 : ¬(c = "uci") := by
    intro he
    rw [he] at hc
    exact absurd hc (by decide)
  have h2 : ¬(c = "isready") := by
    intro he
    rw [he] at hc
    exact absurd hc (by decide)
  simp only [process_command, if_neg h1, if_neg h2, hc, if_true]
  simp [positionBranch, hsplit, hfen, pushAll, hmv]

/-- Witness for the amended C5 at a concrete command. -/
theorem c5_amended_witness :
    process_command toyRules res1 c5prior
        ("position fen " ++ startFen ++ " moves zz99") =
      .err { c5prior with position := String.intercalate " " ["rnbqkbnr/pppppppp/8/8/8/8/PPPPPPPP/RNBQKBNR", "w", "KQkq", "-", "0", "1"] } :=
  c5_amended toyRules res1 c5prior ("position fen " ++ startFen ++ " moves zz99")
    "rnbqkbnr/pppppppp/8/8/8/8/PPPPPPPP/RNBQKBNR" "w" "KQkq" "-" "0" "1" "zz99"
    ⟨startFen, []⟩ (by decide) (by decide) (by decide) (by decide)

/-- The state reached by `go movetime 0` then `stop` in a fresh session. -/
def c6s : SysState :=
  { initState with best_move := some (.mv "e2e4"), send_queue := ["stop"],
                   move_thread := some 0, live := [], next_id := 1,
                   output := ["bestmove e2e4"] }

/-- Counterexample for C6: after `stop` completes, the active-task handle
is NOT cleared — `move_thread` still holds the joined thread. -/
theorem c6_counterexample :
    run toyRules res1 initState [.cmd "go movetime 0", .cmd "stop"] = .ok c6s ∧
    c6s.move_thread = some 0 := by
  constructor <;> decide

/-- C6 amended: `stop` leaves the handle set (pointing at the joined,
finished thread); the subsequent non-blocking check then finds the thread
dead and the result queue empty, reports nothing new, emits no output
line, and clears the handle itself — the result is never reported a
second time. -/
theorem c6_amended {Board : Type} (R : Rules Board) (results : Nat → BestMove)
    {s : SysState} {t : Nat} {task : Task}
    (hmt : s.move_thread = some t) (hlive : s.live = [task]) (hid : task.id = t)
    (hrecv : s.recv_queue = []) :
    ∃ s1, process_command R results s "stop" = .ok s1 ∧
      s1.move_thread = some t ∧
      check_best_move results s1 = (false, { s1 with move_thread := none }) := by
  rw [process_stop, stop_ok_of_live hmt hlive hid hrecv]
  refine ⟨emitBest
      { s with send_queue := s.send_queue ++ ["stop"], recv_queue := [],
               best_move := some (results t), live := [] } (results t),
    rfl, ?_, ?_⟩
  · exact hmt
  · exact check_done_empty hmt rfl rfl

/-- Witness for the amended C6 at the state after `go movetime 0`. -/
theorem c6_witness :
    ∃ s1, process_command toyRules res1 sAfterGo0 "stop" = .ok s1 ∧
      s1.move_thread = some 0 ∧
      check_best_move res1 s1 = (false, { s1 with move_thread := none }) :=
  c6_amended toyRules res1 rfl rfl rfl rfl

/-- C7: the polling helper `check_best_move` (a total function, hence
non-blocking) consumes and reports a pending result exactly when the
handled thread has finished and deposited one — returning true, printing
the same line `stop` would print, and clearing the handle — and in every
other invariant state it returns false and prints nothing. -/
theorem c7_check_best_move_spec {results : Nat → BestMove} {s : SysState}
    (hInv : Inv results s) :
    ((∃ t, s.move_thread = some t ∧ t ∉ liveIds s ∧ s.recv_queue ≠ []) →
      ∃ t, s.move_thread = some t ∧
        (check_best_move results s).1 = true ∧
        (check_best_move results s).2.output = s.output ++ [render (results t)] ∧
        (check_best_move results s).2.move_thread = none ∧
        (check_best_move results s).2.recv_queue = []) ∧
    (¬(∃ t, s.move_thread = some t ∧ t ∉ liveIds s ∧ s.recv_queue ≠ []) →
      (check_best_move results s).1 = false ∧
      (check_best_move results s).2.output = s.output) := by
  constructor
  · rintro ⟨t, hmt, hnl, hne⟩
    cases hr : s.recv_queue with
    | nil => exact absurd hr hne
    | cons m rest =>
        have hm := hInv.recv_handle m (by rw [hr]; exact List.mem_cons_self m rest)
        rw [hmt] at hm
        simp only [Option.map] at hm
        rw [Option.some.injEq] at hm
        subst hm
        have hrest : rest = [] := by
          have hle := hInv.recv_le
          rw [hr] at hle
          simpa using hle
        rw [check_done_result hmt hnl hr]
        exact ⟨t, hmt, rfl, by simp [emitBest], by simp [emitBest],
          by simp [emitBest, hrest]⟩
  · intro hn
    cases hmt : s.move_thread with
    | none =>
        have hrecv : s.recv_queue = [] := by
          cases hr : s.recv_queue with
          | nil => rfl
          | cons m rest =>
              have hm := hInv.recv_handle m
                (by rw [hr]; exact List.mem_cons_self m rest)
              rw [hmt] at hm
              simp at hm
        rw [check_no_thread hmt hrecv]
        exact ⟨rfl, rfl⟩
    | some t =>
        by_cases hmem : t ∈ liveIds s
        · rw [check_spec_alive hmt hmem]
          exact ⟨rfl, rfl⟩
        · have hrecv : s.recv_queue = [] := by
            by_contra hne
            exact hn ⟨t, hmt, hmem, hne⟩
          rw [check_done_empty hmt (live_nil_of_not_mem hInv hmt hmem) hrecv]
          exact ⟨rfl, rfl⟩

/-- A session whose task has finished on its own with a pending result. -/
def sDone : SysState :=
  { sAfterGo0 with recv_queue := [.mv "e2e4"], live := [] }

/-- Witness for C7 at a concrete finished-task state. -/
theorem c7_witness :
    (check_best_move res1 sDone).1 = true ∧
    (check_best_move res1 sDone).2.output = sDone.output ++ [render (res1 0)] ∧
    (check_best_move res1 sDone).2.move_thread = none := by
  have hInv : Inv res1 sDone := by
    refine ⟨rfl, rfl, by decide, by decide, by decide, by decide, by decide, ?_⟩
    intro t ht
    have h2 : some 0 = some t := ht
    injection h2 with h3
    have h4 : t < 1 := by omega
    exact h4
  obtain ⟨t, hmt, h1, h2, h3, h4⟩ := (c7_check_best_move_spec hInv).1
    ⟨0, rfl, by decide, by decide⟩
  have ht : (0 : Nat) = t := by injection hmt
  subst ht
  exact ⟨h1, h2, h3⟩

/-- Counterexample for C8: `go movetime` with no number is not silently
ignored — processing it raises (`int(args[i + 1])` has no token to read). -/
theorem c8_counterexample :
    process_command toyRules res1 initState "go movetime" = .err initState := by
  decide

/-- C8 amended: a line matching none of the recognized command patterns of
the `if`/`elif` chain is silently ignored — no output, no state change,
no error; malformed arguments to recognized commands instead raise (see
the counterexample). -/
theorem c8_amended {Board : Type} (R : Rules Board) (results : Nat → BestMove)
    (s : SysState) (c : String)
    (h1 : c ≠ "uci") (h2 : c ≠ "isready")
    (h3 : starts_with c "position" = false)
    (h4 : starts_with c "go" = false)
    (h5 : starts_with c "stop" = false)
    (h6 : starts_with c "ucinewgame" = false)
    (h7 : starts_with c "setoption" = false)
    (h8 : starts_with c "quit" = false) :
    process_command R results s c = .ok s := by
  simp only [process_command, if_neg h1, if_neg h2, h3, h4, h5, h6, h7, h8,
    Bool.false_eq_true, if_false]

/-- Witness for the amended C8: an unrecognized line in a mid-session
state is a no-op. -/
theorem c8_witness :
    process_command toyRules res1 sAfterGo0 "banana" = .ok sAfterGo0 :=
  c8_amended toyRules res1 sAfterGo0 "banana" (by decide) (by decide) (by decide)
    (by decide) (by decide) (by decide) (by decide) (by decide)

/-- C9: the limits passed to the freshly started thread are exactly the
output of the argument loop on this command's own tokens — `movetime`
sets the time budget, `depth` the depth bound, `infinite` the sentinel
999999999, and absent flags keep the defaults 0 — independent of every
limit stored or used before. -/
theorem c9_limits_from_command_only {Board : Type} (R : Rules Board)
    (results : Nat → BestMove) (s s2 : SysState) (c : String) (t d : Int)
    (hg : isGoLine c = true)
    (hparse : goLoop (split_space c).tail 0 0 = some (t, d))
    (hok : process_command R results s c = .ok s2) :
    (s2.move_thread = some s.next_id ∧
      s2.live.getLast? = some ⟨s.next_id, s.position, t, d⟩) ∧
    (∀ w v, py_int w = some v → goLoop ["movetime", w] 0 0 = some (v, 0)) ∧
    (∀ w v, py_int w = some v → goLoop ["depth", w] 0 0 = some (0, v)) ∧
    goLoop ["infinite"] 0 0 = some ((999999999 : Int), 0) ∧
    goLoop [] 0 0 = some ((0 : Int), (0 : Int)) := by
  rw [process_go R results s hg] at hok
  obtain ⟨t2, d2, hp2, rfl⟩ := goBranch_ok_elim hok
  rw [hparse] at hp2
  rw [Option.some.injEq] at hp2
  injection hp2 with ha hb
  subst ha
  subst hb
  obtain ⟨he, hau, hn, hpos, hout⟩ := killThread_fields results s
  refine ⟨⟨by simp [startThread, drain, hn], ?_⟩, ?_, ?_, rfl, rfl⟩
  · simp [startThread, drain, hn, hpos, List.getLast?_concat]
  · intro w v hw
    have hw1 : w ≠ "movetime" := by
      intro he2
      rw [he2, show py_int "movetime" = none from by decide] at hw
      exact Option.noConfusion hw
    have hw2 : w ≠ "depth" := by
      intro he2
      rw [he2, show py_int "depth" = none from by decide] at hw
      exact Option.noConfusion hw
    have hw3 : w ≠ "infinite" := by
      intro he2
      rw [he2, show py_int "infinite" = none from by decide] at hw
      exact Option.noConfusion hw
    simp [goLoop, hw, hw1, hw2, hw3]
  · intro w v hw
    have hw1 : w ≠ "movetime" := by
      intro he2
      rw [he2, show py_int "movetime" = none from by decide] at hw
      exact Option.noConfusion hw
    have hw2 : w ≠ "depth" := by
      intro he2
      rw [he2, show py_int "depth" = none from by decide] at hw
      exact Option.noConfusion hw
    have hw3 : w ≠ "infinite" := by
      intro he2
      rw [he2, show py_int "infinite" = none from by decide] at hw
      exact Option.noConfusion hw
    simp [goLoop, hw, hw1, hw2, hw3]

/-- A mid-session state with stale limits and a still-running task. -/
def c9pre : SysState :=
  { initState with position := "P1", time_limit := 777, max_depth := 9,
                   move_thread := some 0, live := [⟨0, "P0", 55, 66⟩],
                   next_id := 1 }

/-- The state after `go movetime 100 depth 3` from `c9pre`. -/
def c9post : SysState :=
  { initState with position := "P1", time_limit := 777, max_depth := 9,
                   move_thread := some 1, live := [⟨1, "P1", 100, 3⟩],
                   next_id := 2 }

/-- Witness for C9: fresh limits only, stale ones ignored. -/
theorem c9_witness :
    process_command toyRules res1 c9pre "go movetime 100 depth 3" = .ok c9post ∧
    c9post.move_thread = some c9pre.next_id ∧
    c9post.live.getLast? = some ⟨c9pre.next_id, c9pre.position, 100, 3⟩ := by
  refine ⟨by decide, ?_, ?_⟩
  · exact (c9_limits_from_command_only toyRules res1 c9pre c9post
      "go movetime 100 depth 3" 100 3 (by decide) (by decide) (by decide)).1.1
  · exact (c9_limits_from_command_only toyRules res1 c9pre c9post
      "go movetime 100 depth 3" 100 3 (by decide) (by decide) (by decide)).1.2

end ChessInterface
